import Mathlib

/-!
Verification of the customer-chatbot RAG core: the semantic cache
(`lib/redis/semantic-cache.ts`), the vector similarity search
(`supabase/schema.sql` `match_documents` and `lib/supabase/client.ts`
`searchSimilarDocuments`), the ingestion deduplication gate
(`lib/rag/pdf-processor.ts` `processText`, `lib/supabase/client.ts`
`checkDocumentExists`), the retrieval orchestrator's `buildContextString`
and `cacheQueryResponse` (`lib/rag/orchestrator.ts`), and the two
rate-limiter backends (`lib/rate-limit/memory.ts`, `lib/rate-limit/redis.ts`).

Numbers that the source manipulates as IEEE doubles (embedding coordinates,
similarities, thresholds) are modelled as real numbers; integral quantities
(timestamps, counters, sizes) as `Int`/`Nat`.  External effects (Redis and
Supabase calls, the embedding provider) are modelled by passing the call's
outcome — or the backing state it reads and writes — as an explicit argument.
-/

/-! ## Cosine similarity (`semantic-cache.ts`, `cosineSimilarity`)

The source loops `i` over `0 .. a.length - 1` accumulating
`dot += a[i]*b[i]`, `normA += a[i]*a[i]`, `normB += b[i]*b[i]` and returns
`dot / (sqrt(normA) * sqrt(normB))`.  The model below agrees with the source
whenever `a.length ≤ b.length`; when `b` is shorter the source reads
`undefined` and yields NaN, which the spec classes as a programming error
("mismatched dimensionality is a programming error, not a recoverable
condition"). -/

/-- Sum of pairwise products over the index range of `a` (the loop's `dot`). -/
def dotAcc (a b : List ℝ) : ℝ := (List.zipWith (· * ·) a b).sum

/-- Sum of squares of the entries of `v` (the loop's `normA` / `normB`). -/
def sumSquares (v : List ℝ) : ℝ := (v.map fun x => x * x).sum

/-- Model of `cosineSimilarity(a, b)` from `semantic-cache.ts`:
`dot / (Math.sqrt(normA) * Math.sqrt(normB))`, where `normB` ranges over
the entries of `b` at indices below `a.length`. -/
noncomputable def cosineSimilarity (a b : List ℝ) : ℝ :=
  dotAcc a b / (Real.sqrt (sumSquares a) * Real.sqrt (sumSquares (b.take a.length)))

/-! ## The semantic cache (`semantic-cache.ts`)

All entries live in one Redis hash (`semantic_cache:v1`).  A Redis hash is
modelled as an association list in field order: Redis keeps fields of a
small hash in insertion order, `hgetall` enumerates them in that order, and
`Object.values` preserves it.  `crypto.randomUUID()` field ids are passed
in as arguments. -/

/-- A stored cache entry (interface `SemanticCacheEntry`). -/
structure SemanticCacheEntry where
  query : String
  embedding : List ℝ
  response : String
  timestamp : ℤ

/-- The Redis hash `semantic_cache:v1`: fields (ids) with their entries. -/
abbrev CacheHash := List (String × SemanticCacheEntry)

/-- The constant `MAX_CACHE_ENTRIES = 500`. -/
def MAX_CACHE_ENTRIES : ℕ := 500

/-- Redis `HSET hash k v`: overwrite the field in place when present,
append a new field otherwise. -/
def hset (h : CacheHash) (k : String) (v : SemanticCacheEntry) : CacheHash :=
  if k ∈ h.map Prod.fst then
    h.map (fun p => if p.1 = k then (k, v) else p)
  else
    h ++ [(k, v)]

/-- The scan loop of `searchSemanticCache`: walk the hash values in order
and return the response of the first entry whose similarity to the query
embedding reaches the threshold. -/
noncomputable def scanCache (queryEmbedding : List ℝ) (similarityThreshold : ℝ) :
    CacheHash → Option String
  | [] => none
  | (_, entry) :: rest =>
    if cosineSimilarity queryEmbedding entry.embedding ≥ similarityThreshold then
      some entry.response
    else
      scanCache queryEmbedding similarityThreshold rest

/-- Model of `searchSemanticCache(queryEmbedding, similarityThreshold)`.
Its one fallible step is `redis.hgetall`, whose outcome is the first
argument; the `catch` clause turns any backing-store failure into `null`
(a cache miss), and an empty hash also yields `null`. -/
noncomputable def searchSemanticCache (hgetallResult : Except String CacheHash)
    (queryEmbedding : List ℝ) (similarityThreshold : ℝ) : Option String :=
  match hgetallResult with
  | .error _ => none
  | .ok entries => scanCache queryEmbedding similarityThreshold entries

/-- Timestamp order on hash fields, used by the eviction sort
(`.sort((a, b) => a.timestamp - b.timestamp)`). -/
abbrev tsLE (a b : String × SemanticCacheEntry) : Prop :=
  a.2.timestamp ≤ b.2.timestamp

/-- Model of `evictOldestEntries(count)`: sort all fields by ascending
timestamp (JavaScript `Array.prototype.sort` is stable, as is
`List.insertionSort`), take the first `count` as victims, and `HDEL` their
field ids. -/
def evictOldestEntries (h : CacheHash) (count : ℕ) : CacheHash :=
  let victims := ((h.insertionSort tsLE).take count).map Prod.fst
  h.filter (fun p => decide (p.1 ∉ victims))

/-- Model of the successful path of
`storeInSemanticCache(query, embedding, response, ttlSeconds)` run at time
`now` (`Date.now()`), with `id` the fresh `crypto.randomUUID()`:
`HSET` the new entry, `EXPIRE` the whole hash (Redis deletes the key
outright when the requested TTL is not positive), then read `HLEN` and
evict `size - MAX_CACHE_ENTRIES` oldest entries when the size bound is
exceeded. -/
def storeInSemanticCache (h : CacheHash) (id query : String) (embedding : List ℝ)
    (response : String) (ttlSeconds now : ℤ) : CacheHash :=
  let entry : SemanticCacheEntry := ⟨query, embedding, response, now⟩
  let h1 := hset h id entry
  let h2 := if ttlSeconds ≤ 0 then [] else h1
  let size := h2.length
  if size > MAX_CACHE_ENTRIES then evictOldestEntries h2 (size - MAX_CACHE_ENTRIES) else h2

instance : IsTotal (String × SemanticCacheEntry) tsLE := ⟨fun _ _ => le_total _ _⟩

instance : IsTrans (String × SemanticCacheEntry) tsLE := ⟨fun _ _ _ => le_trans⟩

/-- Arguments of one `storeInSemanticCache` call (with its generated id
and its `Date.now()` reading). -/
structure StoreReq where
  id : String
  query : String
  embedding : List ℝ
  response : String
  ttlSeconds : ℤ
  now : ℤ

/-- A sequence of single-threaded `storeInSemanticCache` calls. -/
def storeSeq (h : CacheHash) (reqs : List StoreReq) : CacheHash :=
  reqs.foldl (fun acc rq =>
    storeInSemanticCache acc rq.id rq.query rq.embedding rq.response rq.ttlSeconds rq.now) h

/-! ### Failure handling of the cache layer (claim C5)

Each Redis call's outcome is an explicit argument; the `do` blocks below
reproduce the body of the `try`, and the wrappers reproduce the `catch`. -/

/-- Body of the `try` block of `storeInSemanticCache`: `hset`, `expire`,
`hlen`, and conditionally `evictOldestEntries`; any failing step aborts
the rest (an exception skips the remainder of the `try`). -/
def storeInSemanticCacheBody (hsetResult expireResult : Except String Unit)
    (hlenResult : Except String ℕ) (evictResult : Except String Unit) :
    Except String Unit := do
  let _ ← hsetResult
  let _ ← expireResult
  let size ← hlenResult
  if size > MAX_CACHE_ENTRIES then
    let _ ← evictResult
    pure ()
  else
    pure ()

/-- The outcome `storeInSemanticCache` presents to its caller: the `catch`
clause logs the error and falls through, so the function always returns
normally. -/
def storeInSemanticCacheCaught (hsetResult expireResult : Except String Unit)
    (hlenResult : Except String ℕ) (evictResult : Except String Unit) :
    Except String Unit :=
  match storeInSemanticCacheBody hsetResult expireResult hlenResult evictResult with
  | .ok _ => .ok ()
  | .error _ => .ok ()

/-- Body of the `try` block of `cacheQueryResponse` (`orchestrator.ts`):
`generateEmbedding(query)` then `storeInSemanticCache(..., 3600)`. -/
def cacheQueryResponseBody (embeddingResult : Except String (List ℝ))
    (storeResult : Except String Unit) : Except String Unit := do
  let _ ← embeddingResult
  let _ ← storeResult

/-- The outcome `cacheQueryResponse` presents to its caller: the `catch`
clause logs "Failed to cache response" and does not rethrow. -/
def cacheQueryResponseCaught (embeddingResult : Except String (List ℝ))
    (storeResult : Except String Unit) : Except String Unit :=
  match cacheQueryResponseBody embeddingResult storeResult with
  | .ok _ => .ok ()
  | .error _ => .ok ()

/-! ## Vector similarity search (`schema.sql` `match_documents`,
`supabase/client.ts` `searchSimilarDocuments`) -/

/-- A row of the `documents` table as the search reads it. -/
structure StoredDocument where
  content : String
  embedding : List ℝ

/-- A row returned by `match_documents` (interface `SearchResult`; the
model keeps the two fields the claims are about). -/
structure SearchResult where
  content : String
  similarity : ℝ

/-- The pgvector cosine-distance operator of the query's `<=>` with
`vector_cosine_ops`: one minus the cosine similarity of the vectors. -/
noncomputable def cosineDistance (a b : List ℝ) : ℝ := 1 - cosineSimilarity a b

/-- Sort key of `ORDER BY d.embedding <=> query_embedding`. -/
noncomputable abbrev distLE (q : List ℝ) (d1 d2 : StoredDocument) : Prop :=
  cosineDistance d1.embedding q ≤ cosineDistance d2.embedding q

noncomputable instance (q : List ℝ) : DecidableRel (distLE q) :=
  fun _ _ => Real.decidableLE _ _

/-- Model of the `match_documents` SQL function: keep the rows with
`1 - (d.embedding <=> query_embedding) >= match_threshold`, order by
ascending distance, apply `LIMIT match_count`, and return each row's
content with `similarity = 1 - (d.embedding <=> query_embedding)`. -/
noncomputable def match_documents (docs : List StoredDocument) (query_embedding : List ℝ)
    (match_threshold : ℝ) (match_count : ℕ) : List SearchResult :=
  let kept := docs.filter fun d =>
    decide (1 - cosineDistance d.embedding query_embedding ≥ match_threshold)
  let ordered := kept.insertionSort (distLE query_embedding)
  (ordered.take match_count).map fun d =>
    ⟨d.content, 1 - cosineDistance d.embedding query_embedding⟩

/-- Model of the successful path of `searchSimilarDocuments`: it forwards
its arguments to the `match_documents` RPC and returns the rows (on an RPC
error it throws, which is outside claim C1). -/
noncomputable def searchSimilarDocuments (docs : List StoredDocument)
    (queryEmbedding : List ℝ) (matchThreshold : ℝ) (matchCount : ℕ) : List SearchResult :=
  match_documents docs queryEmbedding matchThreshold matchCount

/-! ## Context rendering (`orchestrator.ts`, `buildContextString`)

Document similarities reach `buildContextString` as finite doubles, so the
model takes them as rationals; the `toFixed(1)` rendering is modelled as
exact rational rounding to one decimal place. -/

/-- A document as `buildContextString` receives it. -/
structure ContextDoc where
  content : String
  similarity : ℚ

/-- Model of JavaScript `x.toFixed(1)`: the decimal string of `x` rounded
to one digit after the point. -/
def toFixed1 (x : ℚ) : String :=
  let n : ℤ := round (x * 10)
  let sign := if n < 0 then "-" else ""
  sign ++ toString (n.natAbs / 10) ++ "." ++ toString (n.natAbs % 10)

/-- Model of JavaScript `Array.prototype.join(sep)`. -/
def joinSep (sep : String) : List String → String
  | [] => ""
  | [s] => s
  | s :: rest => s ++ sep ++ joinSep sep rest

/-- The sentinel `buildContextString` returns for an empty document list. -/
def noInfoSentinel : String := "No relevant information found in the knowledge base."

/-- The annotation line of one document:
`[Document ${index + 1}] (Relevance: ${(similarity * 100).toFixed(1)}%)\n${content}`. -/
def renderDoc (index : ℕ) (doc : ContextDoc) : String :=
  "[Document " ++ toString (index + 1) ++ "] (Relevance: "
    ++ toFixed1 (doc.similarity * 100) ++ "%)\n" ++ doc.content

/-- Model of `buildContextString(docs)`: the sentinel when `docs` is
empty, otherwise the indexed renderings joined with `"\n\n---\n\n"`. -/
def buildContextString (docs : List ContextDoc) : String :=
  if docs.length = 0 then
    noInfoSentinel
  else
    joinSep "\n\n---\n\n" (docs.mapIdx renderDoc)

/-- Spec-side rendering of a non-empty document list, written as direct
recursion ("an ordered concatenation in which each document is annotated
with its percentage relevance score"); compared against
`buildContextString` in claim C9. -/
def contextConcat (index : ℕ) : List ContextDoc → String
  | [] => ""
  | [d] => renderDoc index d
  | d :: d' :: ds => renderDoc index d ++ "\n\n---\n\n" ++ contextConcat (index + 1) (d' :: ds)

/-! ## Ingestion and the deduplication gate (`pdf-processor.ts`
`processText`, `supabase/client.ts` `checkDocumentExists`)

`crypto.createHash("sha256")` is an external call: the digest of the text
is the `sourceHash` argument.  The `documents` table is viewed through the
only column the gate reads, `source_hash`: the table is a list of the
`source_hash` values of its rows, and the existence query returns the
matching rows (or a backing-store error). -/

/-- Model of `checkDocumentExists(hash)`: `queryResult` is the outcome of
the `select ... eq source_hash hash limit 1` call; on an error the source
logs a warning and returns `false`, otherwise it returns
`data && data.length > 0`. -/
def checkDocumentExists (queryResult : Except String (List String)) : Bool :=
  match queryResult with
  | .error _ => false
  | .ok data => decide (data.length > 0)

/-- The successful outcome of the existence query against a table `tbl` of
stored `source_hash` values: the rows whose `source_hash` equals `hash`. -/
def queryByHash (tbl : List String) (hash : String) : Except String (List String) :=
  .ok (tbl.filter (fun h => h == hash))

/-- The external calls `processText` makes after the gate, in order. -/
inductive IngestEvent where
  | checkExists
  | chunk
  | embed
  | insert
deriving DecidableEq

/-- Result value of a successful `processText`. -/
structure IngestResult where
  success : Bool
  chunksProcessed : ℕ
deriving DecidableEq

/-- The characters `String.prototype.trim` strips: the ECMAScript
WhiteSpace set (TAB, VT, FF, SP, NBSP, ZWNBSP and the Unicode
space-separator category Zs) together with the LineTerminator set
(LF, CR, LS, PS), given by code point. -/
def jsWhitespace (c : Char) : Bool :=
  c.toNat == 0x09 || c.toNat == 0x0A || c.toNat == 0x0B || c.toNat == 0x0C
    || c.toNat == 0x0D || c.toNat == 0x20 || c.toNat == 0xA0 || c.toNat == 0x1680
    || (decide (0x2000 ≤ c.toNat) && decide (c.toNat ≤ 0x200A))
    || c.toNat == 0x2028 || c.toNat == 0x2029 || c.toNat == 0x202F
    || c.toNat == 0x205F || c.toNat == 0x3000 || c.toNat == 0xFEFF

/-- Model of `processText(text, metadata)`.  `sourceHash` is the sha256
digest of `text`; `existsQuery` the outcome of the existence check's
backing query; `chunks` the output of the external `chunkText` splitter.
Returned: the result (or thrown error message), the trace of external
calls made, and the `source_hash` values of the rows inserted (one per
chunk, each chunk record carrying the whole document's hash).  The blank
test `!text || text.trim().length === 0` holds exactly when every
character of `text` is in the `trim()` whitespace set `jsWhitespace`
(vacuously for the empty string), which is how it is written here
(`String.trim` itself does not reduce in the kernel, and its whitespace
set differs from JavaScript's). -/
def processText (text sourceHash : String) (existsQuery : Except String (List String))
    (chunks : List String) :
    Except String IngestResult × List IngestEvent × List String :=
  if text.toList.all jsWhitespace then
    (.error "No text to process", [], [])
  else if checkDocumentExists existsQuery then
    (.error "DUPLICATE_DOCUMENT", [.checkExists], [])
  else
    (.ok ⟨true, chunks.length⟩,
      .checkExists :: .chunk :: .embed :: chunks.map (fun _ => .insert),
      chunks.map (fun _ => sourceHash))

/-! ## Rate limiters (`rate-limit/memory.ts`, `rate-limit/redis.ts`)

Counts are modelled as naturals (they start at 1 and only grow), wall
clock instants as integers (`Date.now()` milliseconds for the memory
backend, seconds for Redis). -/

/-- A value of the memory limiter's `limitMap`: `{count, resetTime}`. -/
structure MemRecord where
  count : ℕ
  resetTime : ℤ
deriving DecidableEq

/-- The memory limiter's `limitMap`. -/
abbrev MemState := List (String × MemRecord)

/-- `Map.get`. -/
def memGet (st : MemState) (key : String) : Option MemRecord :=
  (st.find? (fun p => p.1 == key)).map Prod.snd

/-- `Map.set`: overwrite in place or append. -/
def memSet (st : MemState) (key : String) (v : MemRecord) : MemState :=
  if key ∈ st.map Prod.fst then
    st.map (fun p => if p.1 = key then (key, v) else p)
  else
    st ++ [(key, v)]

/-- Constructor arguments of `MemoryRateLimiter`. -/
structure MemoryRateLimiter where
  maxRequests : ℕ
  windowMs : ℤ

/-- Model of `MemoryRateLimiter.check(key)` at time `now`: a missing or
expired record is replaced by `{count: 1, resetTime: now + windowMs}` and
the call is allowed; otherwise the call is denied when
`count >= maxRequests`, else the count is incremented and the call is
allowed. -/
def MemoryRateLimiter.check (rl : MemoryRateLimiter) (st : MemState) (key : String)
    (now : ℤ) : Bool × MemState :=
  match memGet st key with
  | none => (true, memSet st key ⟨1, now + rl.windowMs⟩)
  | some record =>
    if now > record.resetTime then
      (true, memSet st key ⟨1, now + rl.windowMs⟩)
    else if record.count ≥ rl.maxRequests then
      (false, st)
    else
      (true, memSet st key ⟨record.count + 1, record.resetTime⟩)

/-- A Redis string value holding a counter, with its optional expiry
instant (`expireAt = creation + TTL`; Redis drops the key once the clock
reaches it). -/
structure RedisVal where
  value : ℕ
  expireAt : Option ℤ
deriving DecidableEq

/-- The Redis keyspace used by the distributed limiter. -/
abbrev RedisState := List (String × RedisVal)

/-- Read a key, treating an expired one as absent. -/
def redisGetLive (st : RedisState) (key : String) (now : ℤ) : Option RedisVal :=
  match (st.find? (fun p => p.1 == key)).map Prod.snd with
  | none => none
  | some v =>
    match v.expireAt with
    | none => some v
    | some e => if e ≤ now then none else some v

/-- Write a key. -/
def redisSet (st : RedisState) (key : String) (v : RedisVal) : RedisState :=
  if key ∈ st.map Prod.fst then
    st.map (fun p => if p.1 = key then (key, v) else p)
  else
    st ++ [(key, v)]

/-- Redis `INCR`: create an absent (or expired) key with value 1 and no
TTL, else increment while keeping the TTL; returns the post-increment
value. -/
def redisIncr (st : RedisState) (key : String) (now : ℤ) : ℕ × RedisState :=
  match redisGetLive st key now with
  | none => (1, redisSet st key ⟨1, none⟩)
  | some v => (v.value + 1, redisSet st key ⟨v.value + 1, v.expireAt⟩)

/-- Redis `EXPIRE key seconds`: set the expiry instant; a non-positive
`seconds` deletes the key. -/
def redisExpire (st : RedisState) (key : String) (seconds now : ℤ) : RedisState :=
  if seconds ≤ 0 then
    st.filter (fun p => decide (p.1 ≠ key))
  else
    match (st.find? (fun p => p.1 == key)).map Prod.snd with
    | none => st
    | some v => redisSet st key ⟨v.value, some (now + seconds)⟩

/-- Constructor arguments of `RedisRateLimiter` (`pfx` is the source's
key-space tag, first constructor argument). -/
structure RedisRateLimiter where
  pfx : String
  maxRequests : ℕ
  windowSec : ℤ

/-- Model of `RedisRateLimiter.check(key)` at time `now`: `INCR` the
counter at `pfx + ":" + key`, set its expiry to `windowSec` when the
post-increment count is exactly 1, and allow iff the count is at most
`maxRequests`. -/
def RedisRateLimiter.check (rl : RedisRateLimiter) (st : RedisState) (key : String)
    (now : ℤ) : Bool × RedisState :=
  let redisKey := rl.pfx ++ ":" ++ key
  let count := (redisIncr st redisKey now).1
  let st1 := (redisIncr st redisKey now).2
  let st2 := if count = 1 then redisExpire st1 redisKey rl.windowSec now else st1
  (decide (count ≤ rl.maxRequests), st2)

/-- Run a sequence of `MemoryRateLimiter.check` calls at the given times,
collecting the returned booleans and the final map. -/
def memoryRun (rl : MemoryRateLimiter) (key : String) :
    MemState → List ℤ → List Bool × MemState
  | st, [] => ([], st)
  | st, t :: ts =>
    ((rl.check st key t).1 :: (memoryRun rl key (rl.check st key t).2 ts).1,
      (memoryRun rl key (rl.check st key t).2 ts).2)

/-- Run a sequence of `RedisRateLimiter.check` calls at the given times,
collecting the returned booleans and the final keyspace. -/
def redisRun (rl : RedisRateLimiter) (key : String) :
    RedisState → List ℤ → List Bool × RedisState
  | st, [] => ([], st)
  | st, t :: ts =>
    ((rl.check st key t).1 :: (redisRun rl key (rl.check st key t).2 ts).1,
      (redisRun rl key (rl.check st key t).2 ts).2)

/-! ## Helper lemmas -/

lemma sumSquares_nonneg (v : List ℝ) : 0 ≤ sumSquares v := by
  apply List.sum_nonneg
  intro x hx
  obtain ⟨y, _, rfl⟩ := List.mem_map.mp hx
  exact mul_self_nonneg y

lemma zipWith_mul_self (e : List ℝ) :
    List.zipWith (· * ·) e e = e.map (fun x => x * x) := by
  induction e with
  | nil => rfl
  | cons x xs ih => simp [List.zipWith, ih]

lemma cosineSimilarity_self (e : List ℝ) (he : 0 < sumSquares e) :
    cosineSimilarity e e = 1 := by
  unfold cosineSimilarity dotAcc
  rw [List.take_length, zipWith_mul_self]
  show sumSquares e / (Real.sqrt (sumSquares e) * Real.sqrt (sumSquares e)) = 1
  rw [Real.mul_self_sqrt (sumSquares_nonneg e)]
  exact div_self (ne_of_gt he)

lemma scanCache_nil (q : List ℝ) (t : ℝ) : scanCache q t [] = none := rfl

lemma scanCache_cons (q : List ℝ) (t : ℝ) (p : String × SemanticCacheEntry)
    (rest : CacheHash) :
    scanCache q t (p :: rest) =
      if cosineSimilarity q p.2.embedding ≥ t then some p.2.response
      else scanCache q t rest := by
  obtain ⟨k, e⟩ := p
  rfl

lemma scanCache_append (q : List ℝ) (t : ℝ) (l1 l2 : CacheHash) :
    scanCache q t (l1 ++ l2) = (scanCache q t l1).or (scanCache q t l2) := by
  induction l1 with
  | nil => simp [scanCache_nil, Option.or]
  | cons p rest ih =>
    rw [List.cons_append, scanCache_cons, scanCache_cons]
    by_cases hp : cosineSimilarity q p.2.embedding ≥ t
    · simp [hp, Option.or]
    · simp [hp, ih]

lemma scanCache_eq_none_iff (q : List ℝ) (t : ℝ) (l : CacheHash) :
    scanCache q t l = none ↔ ∀ p ∈ l, cosineSimilarity q p.2.embedding < t := by
  induction l with
  | nil => simp [scanCache_nil]
  | cons p rest ih =>
    rw [scanCache_cons]
    by_cases hp : cosineSimilarity q p.2.embedding ≥ t
    · simp only [hp, if_true]
      constructor
      · intro hcontra; exact absurd hcontra (by simp)
      · intro hall
        exact absurd (hall p (List.mem_cons_self p rest)) (not_lt.mpr hp)
    · simp only [hp, if_false, ih]
      constructor
      · intro hall p' hp'
        rcases List.mem_cons.mp hp' with rfl | hmem
        · exact lt_of_not_ge hp
        · exact hall p' hmem
      · intro hall p' hp'
        exact hall p' (List.mem_cons_of_mem p hp')

lemma scanCache_eq_some_iff (q : List ℝ) (t : ℝ) (l : CacheHash) (r : String) :
    scanCache q t l = some r ↔
      ∃ pre entry suf, l = pre ++ entry :: suf ∧
        (∀ p ∈ pre, cosineSimilarity q p.2.embedding < t) ∧
        cosineSimilarity q entry.2.embedding ≥ t ∧
        entry.2.response = r := by
  induction l with
  | nil =>
    simp only [scanCache_nil]
    constructor
    · intro hcontra; exact absurd hcontra (by simp)
    · rintro ⟨pre, entry, suf, habs, -⟩
      exact absurd habs (List.append_ne_nil_of_right_ne_nil pre (by simp)).symm
  | cons p rest ih =>
    rw [scanCache_cons]
    by_cases hp : cosineSimilarity q p.2.embedding ≥ t
    · simp only [hp, if_true]
      constructor
      · intro hsome
        exact ⟨[], p, rest, rfl, by simp, hp, (Option.some_injective _ hsome)⟩
      · rintro ⟨pre, entry, suf, hdecomp, hpre, hentry, hresp⟩
        cases pre with
        | nil =>
          simp only [List.nil_append, List.cons.injEq] at hdecomp
          rw [← hdecomp.1] at hresp
          rw [hresp]
        | cons p0 pre' =>
          simp only [List.cons_append, List.cons.injEq] at hdecomp
          have := hpre p0 (List.mem_cons_self p0 pre')
          rw [← hdecomp.1] at this
          exact absurd this (not_lt.mpr hp)
    · simp only [hp, if_false, ih]
      constructor
      · rintro ⟨pre, entry, suf, hdecomp, hpre, hentry, hresp⟩
        refine ⟨p :: pre, entry, suf, by rw [hdecomp, List.cons_append], ?_, hentry, hresp⟩
        intro p' hp'
        rcases List.mem_cons.mp hp' with rfl | hmem
        · exact lt_of_not_ge hp
        · exact hpre p' hmem
      · rintro ⟨pre, entry, suf, hdecomp, hpre, hentry, hresp⟩
        cases pre with
        | nil =>
          simp only [List.nil_append, List.cons.injEq] at hdecomp
          rw [← hdecomp.1] at hentry
          exact absurd hentry hp
        | cons p0 pre' =>
          simp only [List.cons_append, List.cons.injEq] at hdecomp
          exact ⟨pre', entry, suf, hdecomp.2, fun p' hp' =>
            hpre p' (List.mem_cons_of_mem p0 hp'), hentry, hresp⟩

/-! ## Claim theorems -/

/-- C3: for every query embedding and threshold, `searchSemanticCache`
scans the live entries in iteration order, returns the response of the
first entry whose cosine similarity to the query reaches the threshold,
and returns `null` exactly when no entry reaches it. -/
theorem c3_first_match_lookup (entries : CacheHash) (q : List ℝ) (t : ℝ) :
    (searchSemanticCache (.ok entries) q t = none ↔
      ∀ p ∈ entries, cosineSimilarity q p.2.embedding < t) ∧
    (∀ r : String, searchSemanticCache (.ok entries) q t = some r ↔
      ∃ pre entry suf, entries = pre ++ entry :: suf ∧
        (∀ p ∈ pre, cosineSimilarity q p.2.embedding < t) ∧
        cosineSimilarity q entry.2.embedding ≥ t ∧
        entry.2.response = r) := by
  constructor
  · exact scanCache_eq_none_iff q t entries
  · intro r
    exact scanCache_eq_some_iff q t entries r

/-- C5: a semantic-cache lookup whose backing-store read fails returns a
cache miss (`null`), and a semantic-cache store — as well as
`cacheQueryResponse` — returns normally to its caller regardless of which
backing-store or embedding call failed. -/
theorem c5_cache_failures_swallowed :
    (∀ (err : String) (q : List ℝ) (t : ℝ),
      searchSemanticCache (.error err) q t = none) ∧
    (∀ (hsetResult expireResult : Except String Unit)
        (hlenResult : Except String ℕ) (evictResult : Except String Unit),
      storeInSemanticCacheCaught hsetResult expireResult hlenResult evictResult = .ok ()) ∧
    (∀ (embeddingResult : Except String (List ℝ)) (storeResult : Except String Unit),
      cacheQueryResponseCaught embeddingResult storeResult = .ok ()) := by
  refine ⟨fun _ _ _ => rfl, fun r1 r2 r3 r4 => ?_, fun re rs => ?_⟩
  · cases hb : storeInSemanticCacheBody r1 r2 r3 r4 <;>
      simp [storeInSemanticCacheCaught, hb]
  · cases hb : cacheQueryResponseBody re rs <;>
      simp [cacheQueryResponseCaught, hb]

/-- C1: the vector similarity search returns only documents whose
similarity to the query embedding reaches the threshold, in descending
order of similarity, and every returned record's `similarity` field is
the cosine similarity (one minus the cosine distance) between the
document's embedding and the query embedding. -/
theorem c1_similarity_search (docs : List StoredDocument) (q : List ℝ) (t : ℝ) (k : ℕ) :
    (∀ r ∈ searchSimilarDocuments docs q t k, t ≤ r.similarity) ∧
    ((searchSimilarDocuments docs q t k).map SearchResult.similarity).Sorted (· ≥ ·) ∧
    (∀ r ∈ searchSimilarDocuments docs q t k, ∃ d ∈ docs,
      r.content = d.content ∧ r.similarity = cosineSimilarity d.embedding q) := by
  have hE : searchSimilarDocuments docs q t k =
      ((((docs.filter fun d =>
          decide (1 - cosineDistance d.embedding q ≥ t)).insertionSort
            (distLE q)).take k).map fun d =>
        ⟨d.content, 1 - cosineDistance d.embedding q⟩) := rfl
  haveI instTot : IsTotal StoredDocument (distLE q) := ⟨fun a b => le_total _ _⟩
  haveI instTrans : IsTrans StoredDocument (distLE q) := ⟨fun _ _ _ => le_trans⟩
  have hmem : ∀ r ∈ searchSimilarDocuments docs q t k, ∃ d, d ∈ docs ∧
      (t ≤ 1 - cosineDistance d.embedding q) ∧
      r = (⟨d.content, 1 - cosineDistance d.embedding q⟩ : SearchResult) := by
    intro r hr
    rw [hE] at hr
    obtain ⟨d, hd, rfl⟩ := List.mem_map.mp hr
    have hd1 : d ∈ (docs.filter fun d =>
        decide (1 - cosineDistance d.embedding q ≥ t)).insertionSort (distLE q) :=
      List.mem_of_mem_take hd
    have hd2 := ((List.perm_insertionSort (distLE q) _).mem_iff).mp hd1
    obtain ⟨hdocs, hpass⟩ := List.mem_filter.mp hd2
    exact ⟨d, hdocs, by simpa using of_decide_eq_true hpass, rfl⟩
  refine ⟨?_, ?_, ?_⟩
  · intro r hr
    obtain ⟨d, -, hth, rfl⟩ := hmem r hr
    exact hth
  · rw [hE, List.map_map]
    have hsorted : List.Sorted (distLE q) ((docs.filter fun d =>
        decide (1 - cosineDistance d.embedding q ≥ t)).insertionSort (distLE q)) :=
      List.sorted_insertionSort (distLE q) _
    have htake := List.Pairwise.sublist (List.take_sublist k _) hsorted
    exact List.pairwise_map.mpr (List.Pairwise.imp
      (fun hd => by
        simp only [Function.comp]
        exact sub_le_sub_left hd 1) htake)
  · intro r hr
    obtain ⟨d, hdocs, -, rfl⟩ := hmem r hr
    refine ⟨d, hdocs, rfl, ?_⟩
    show 1 - cosineDistance d.embedding q = cosineSimilarity d.embedding q
    unfold cosineDistance
    ring

lemma hset_fresh (h : CacheHash) (k : String) (v : SemanticCacheEntry)
    (hk : k ∉ h.map Prod.fst) : hset h k v = h ++ [(k, v)] := by
  simp [hset, hk]

lemma insertionSort_append_single_head (l : CacheHash) (c : String × SemanticCacheEntry)
    (hne : l ≠ []) (hle : ∀ p ∈ l, tsLE p c) :
    ∃ v vs, v ∈ l ∧ (l ++ [c]).insertionSort tsLE = v :: vs := by
  induction l with
  | nil => exact absurd rfl hne
  | cons a l ih =>
    cases l with
    | nil =>
      refine ⟨a, [c], List.mem_singleton_self a, ?_⟩
      have ha : tsLE a c := hle a (List.mem_cons_self a [])
      simp [List.insertionSort, List.orderedInsert, ha]
    | cons b l' =>
      obtain ⟨v, vs, hv, hsort⟩ := ih (by simp)
        (fun p hp => hle p (List.mem_cons_of_mem a hp))
      have hstep : ((a :: (b :: l')) ++ [c]).insertionSort tsLE =
          List.orderedInsert tsLE a (((b :: l') ++ [c]).insertionSort tsLE) := by
        simp [List.insertionSort]
      rw [hstep, hsort]
      by_cases hav : tsLE a v
      · exact ⟨a, v :: vs, List.mem_cons_self a _, by simp [List.orderedInsert, hav]⟩
      · exact ⟨v, List.orderedInsert tsLE a vs, List.mem_cons_of_mem a hv,
          by simp [List.orderedInsert, hav]⟩

lemma store_fresh_shape (h : CacheHash) (id query : String) (e : List ℝ) (r : String)
    (ttl now : ℤ) (hfresh : id ∉ h.map Prod.fst) (hsize : h.length ≤ MAX_CACHE_ENTRIES)
    (hts : ∀ p ∈ h, p.2.timestamp ≤ now) (httl : 0 < ttl) :
    ∃ h', (∀ p ∈ h', p ∈ h) ∧
      storeInSemanticCache h id query e r ttl now = h' ++ [(id, ⟨query, e, r, now⟩)] := by
  have key : storeInSemanticCache h id query e r ttl now =
      (if (h ++ [(id, (⟨query, e, r, now⟩ : SemanticCacheEntry))]).length > MAX_CACHE_ENTRIES
       then evictOldestEntries (h ++ [(id, ⟨query, e, r, now⟩)])
         ((h ++ [(id, (⟨query, e, r, now⟩ : SemanticCacheEntry))]).length - MAX_CACHE_ENTRIES)
       else h ++ [(id, ⟨query, e, r, now⟩)]) := by
    simp only [storeInSemanticCache]
    rw [hset_fresh h id _ hfresh, if_neg (not_le.mpr httl)]
  rw [key]
  have hlen : (h ++ [(id, (⟨query, e, r, now⟩ : SemanticCacheEntry))]).length
      = h.length + 1 := by simp
  by_cases hbig : (h ++ [(id, (⟨query, e, r, now⟩ : SemanticCacheEntry))]).length > MAX_CACHE_ENTRIES
  · rw [if_pos hbig]
    have hne : h ≠ [] := by
      intro h0
      rw [hlen, h0] at hbig
      exact absurd hbig (by norm_num [MAX_CACHE_ENTRIES])
    obtain ⟨v, vs, hv, hsort⟩ := insertionSort_append_single_head h (id, ⟨query, e, r, now⟩)
      hne (fun p hp => hts p hp)
    have hcount : (h ++ [(id, (⟨query, e, r, now⟩ : SemanticCacheEntry))]).length
        - MAX_CACHE_ENTRIES = 1 := by
      rw [hlen]
      rw [hlen] at hbig
      unfold MAX_CACHE_ENTRIES at hbig hsize ⊢
      omega
    have hvictim : id ∉ [v.1] := by
      intro hmem
      rw [List.mem_singleton] at hmem
      exact hfresh (hmem ▸ List.mem_map_of_mem Prod.fst hv)
    simp only [evictOldestEntries]
    rw [hcount, hsort]
    simp only [List.take_succ_cons, List.take_zero, List.map_cons, List.map_nil]
    rw [List.filter_append]
    refine ⟨h.filter (fun p => decide (p.1 ∉ [v.1])), ?_, ?_⟩
    · intro p hp
      exact (List.mem_filter.mp hp).1
    · have hfil : List.filter (fun p => decide (p.1 ∉ [v.1]))
          [(id, (⟨query, e, r, now⟩ : SemanticCacheEntry))] = [(id, ⟨query, e, r, now⟩)] := by
        simp [List.filter_cons, show id ≠ v.1 by simpa using hvictim]
      rw [hfil]
  · rw [if_neg hbig]
    exact ⟨h, fun p hp => hp, rfl⟩

lemma cosineSimilarity_unit2 : cosineSimilarity [(1 : ℝ), 0] [1, 0] = 1 := by
  unfold cosineSimilarity dotAcc sumSquares
  norm_num [Real.sqrt_one]

/-- C2, counterexample: the claim "after `store(q, e, r, ttl)`, an
immediate `lookup(e, t)` with `t ≤ 1.0` returns `r`" fails on a cache
that already holds an entry with the same embedding and a different
response: the scan returns the earlier entry's response "A", not the
just-stored "B". -/
theorem c2_counterexample :
    searchSemanticCache
      (.ok (storeInSemanticCache [("k1", ⟨"q1", [1, 0], "A", 0⟩)] "k2" "q2" [1, 0] "B" 3600 5))
      [1, 0] 1 = some "A" ∧ ("A" : String) ≠ "B" := by
  refine ⟨?_, by decide⟩
  have hstore : storeInSemanticCache [("k1", ⟨"q1", [1, 0], "A", 0⟩)] "k2" "q2" [1, 0] "B" 3600 5
      = [("k1", ⟨"q1", [1, 0], "A", 0⟩), ("k2", ⟨"q2", [1, 0], "B", 5⟩)] := by
    have hfr : "k2" ∉ ([("k1", (⟨"q1", [1, 0], "A", 0⟩ : SemanticCacheEntry))]).map Prod.fst := by
      decide
    simp only [storeInSemanticCache]
    rw [hset_fresh _ _ _ hfr, if_neg (by norm_num : ¬ (3600 : ℤ) ≤ 0)]
    norm_num [MAX_CACHE_ENTRIES]
  rw [hstore]
  show scanCache [1, 0] 1 _ = some "A"
  rw [scanCache_cons]
  simp only [cosineSimilarity_unit2]
  norm_num

/-- C2, amended: immediately after a successful `store(q, e, r, ttl)` with
a fresh id, a positive TTL, a nonzero embedding `e`, timestamps no newer
than the store's clock and at most `MAX_CACHE_ENTRIES` live entries, a
`lookup(e, t)` with `t ≤ 1.0` returns a cache hit; it returns `r` itself
whenever no pre-existing entry's similarity to `e` reaches `t`. -/
theorem c2_store_then_lookup (h : CacheHash) (id q : String) (e : List ℝ) (r : String)
    (ttl now : ℤ) (t : ℝ)
    (hfresh : id ∉ h.map Prod.fst)
    (hsize : h.length ≤ MAX_CACHE_ENTRIES)
    (hts : ∀ p ∈ h, p.2.timestamp ≤ now)
    (httl : 0 < ttl)
    (he : 0 < sumSquares e)
    (ht : t ≤ 1) :
    (searchSemanticCache (.ok (storeInSemanticCache h id q e r ttl now)) e t).isSome = true ∧
    ((∀ p ∈ h, cosineSimilarity e p.2.embedding < t) →
      searchSemanticCache (.ok (storeInSemanticCache h id q e r ttl now)) e t = some r) := by
  obtain ⟨h', hsub, hstore⟩ := store_fresh_shape h id q e r ttl now hfresh hsize hts httl
  have hlast : scanCache e t [(id, (⟨q, e, r, now⟩ : SemanticCacheEntry))] = some r := by
    rw [scanCache_cons]
    simp only
    rw [cosineSimilarity_self e he]
    exact if_pos ht
  have hopen : searchSemanticCache (.ok (storeInSemanticCache h id q e r ttl now)) e t
      = (scanCache e t h').or (scanCache e t [(id, ⟨q, e, r, now⟩)]) := by
    rw [show searchSemanticCache (.ok (storeInSemanticCache h id q e r ttl now)) e t
      = scanCache e t (storeInSemanticCache h id q e r ttl now) from rfl, hstore,
      scanCache_append]
  constructor
  · rw [hopen, hlast]
    cases hscan : scanCache e t h' <;> simp [Option.or]
  · intro hall
    have hnone : scanCache e t h' = none :=
      (scanCache_eq_none_iff e t h').mpr (fun p hp => hall p (hsub p hp))
    rw [hopen, hnone, hlast]
    rfl

/-- Witness for C2 at a concrete input: storing "sunny" for embedding
`[1, 0]` into an empty cache and looking the same embedding up with
threshold 1 yields a hit, namely "sunny". -/
theorem c2_store_then_lookup_witness :
    (searchSemanticCache (.ok (storeInSemanticCache [] "k1" "w" [1, 0] "sunny" 3600 0))
      [1, 0] 1).isSome = true ∧
    ((∀ p ∈ ([] : CacheHash), cosineSimilarity [1, 0] p.2.embedding < 1) →
      searchSemanticCache (.ok (storeInSemanticCache [] "k1" "w" [1, 0] "sunny" 3600 0))
        [1, 0] 1 = some "sunny") :=
  c2_store_then_lookup [] "k1" "w" [1, 0] "sunny" 3600 0 1 (by simp)
    (by norm_num [MAX_CACHE_ENTRIES]) (by simp) (by norm_num)
    (by norm_num [sumSquares]) le_rfl

lemma hset_keys_mem (h : CacheHash) (k : String) (v : SemanticCacheEntry)
    (hk : k ∈ h.map Prod.fst) : (hset h k v).map Prod.fst = h.map Prod.fst := by
  simp only [hset, if_pos hk, List.map_map]
  apply List.map_congr_left
  intro p _
  by_cases hpk : p.1 = k
  · simp [hpk]
  · simp [hpk]

lemma hset_keys_nodup (h : CacheHash) (k : String) (v : SemanticCacheEntry)
    (hnd : (h.map Prod.fst).Nodup) : ((hset h k v).map Prod.fst).Nodup := by
  by_cases hk : k ∈ h.map Prod.fst
  · rw [hset_keys_mem h k v hk]
    exact hnd
  · rw [hset_fresh h k v hk, List.map_append]
    rw [List.nodup_append]
    refine ⟨hnd, List.nodup_singleton k, fun a ha hb => hk ?_⟩
    simp only [List.map_singleton, List.mem_singleton] at hb
    subst hb
    exact ha

lemma hset_length_le (h : CacheHash) (k : String) (v : SemanticCacheEntry) :
    (hset h k v).length ≤ h.length + 1 := by
  by_cases hk : k ∈ h.map Prod.fst
  · simp [hset, hk]
  · simp [hset, hk]

lemma evict_length (h2 : CacheHash) (count : ℕ) (hnd : (h2.map Prod.fst).Nodup) :
    (evictOldestEntries h2 count).length = h2.length - count := by
  simp only [evictOldestEntries]
  have hperm : (h2.insertionSort tsLE).Perm h2 := List.perm_insertionSort tsLE h2
  have hndS : ((h2.insertionSort tsLE).map Prod.fst).Nodup :=
    ((hperm.map Prod.fst).nodup_iff).mpr hnd
  set S := h2.insertionSort tsLE with hS
  set victims := (S.take count).map Prod.fst with hV
  have hkeyssplit : S.map Prod.fst
      = (S.take count).map Prod.fst ++ (S.drop count).map Prod.fst := by
    rw [← List.map_append, List.take_append_drop]
  have hdisj : ((S.take count).map Prod.fst).Disjoint ((S.drop count).map Prod.fst) := by
    rw [hkeyssplit] at hndS
    exact (List.nodup_append.mp hndS).2.2
  have hlenfil : (h2.filter (fun p => decide (p.1 ∉ victims))).length
      = (S.filter (fun p => decide (p.1 ∉ victims))).length := by
    rw [← List.countP_eq_length_filter, ← List.countP_eq_length_filter]
    exact (hperm.countP_eq _).symm
  have hsplit : S.filter (fun p => decide (p.1 ∉ victims))
      = (S.take count ++ S.drop count).filter (fun p => decide (p.1 ∉ victims)) := by
    rw [List.take_append_drop]
  have htake0 : (S.take count).filter (fun p => decide (p.1 ∉ victims)) = [] := by
    rw [List.filter_eq_nil_iff]
    intro p hp
    simp only [decide_eq_true_eq, not_not]
    exact List.mem_map_of_mem Prod.fst hp
  have hdropall : (S.drop count).filter (fun p => decide (p.1 ∉ victims)) = S.drop count := by
    rw [List.filter_eq_self]
    intro p hp
    simp only [decide_eq_true_eq]
    intro hmem
    exact hdisj hmem (List.mem_map_of_mem Prod.fst hp)
  rw [hlenfil, hsplit, List.filter_append, htake0, hdropall, List.nil_append,
    List.length_drop, hperm.length_eq]

lemma evict_oldest (h2 : CacheHash) (count : ℕ) (hnd : (h2.map Prod.fst).Nodup) :
    ∀ p ∈ h2, p ∉ evictOldestEntries h2 count →
      ∀ p' ∈ evictOldestEntries h2 count, p.2.timestamp ≤ p'.2.timestamp := by
  intro p hp hnot p' hp'
  simp only [evictOldestEntries] at hnot hp'
  have hperm : (h2.insertionSort tsLE).Perm h2 := List.perm_insertionSort tsLE h2
  have hndS : ((h2.insertionSort tsLE).map Prod.fst).Nodup :=
    ((hperm.map Prod.fst).nodup_iff).mpr hnd
  set S := h2.insertionSort tsLE with hS
  set victims := (S.take count).map Prod.fst with hV
  have hsorted : List.Sorted tsLE S := List.sorted_insertionSort tsLE h2
  have hpairs : ∀ a ∈ S.take count, ∀ b ∈ S.drop count, tsLE a b := by
    have := hsorted
    rw [List.Sorted, ← List.take_append_drop count S, List.pairwise_append] at this
    exact this.2.2
  have hpS : p ∈ S := hperm.mem_iff.mpr hp
  have hpV : p.1 ∈ victims := by
    by_contra hnv
    exact hnot (List.mem_filter.mpr ⟨hp, decide_eq_true hnv⟩)
  have hptake : p ∈ S.take count := by
    obtain ⟨w, hw, hweq⟩ := List.mem_map.mp hpV
    have hwS : w ∈ S := List.mem_of_mem_take hw
    have : w = p := List.inj_on_of_nodup_map hndS hwS hpS hweq
    exact this ▸ hw
  obtain ⟨hp'h2, hp'pred⟩ := List.mem_filter.mp hp'
  have hp'nv : p'.1 ∉ victims := of_decide_eq_true hp'pred
  have hp'S : p' ∈ S := hperm.mem_iff.mpr hp'h2
  have hp'drop : p' ∈ S.drop count := by
    rcases (List.mem_append.mp (by rw [List.take_append_drop]; exact hp'S :
        p' ∈ S.take count ++ S.drop count)) with htk | hdr
    · exact absurd (List.mem_map_of_mem Prod.fst htk) hp'nv
    · exact hdr
  exact hpairs p hptake p' hp'drop

lemma store_preserves_inv (st : CacheHash) (id q : String) (e : List ℝ) (r : String)
    (ttl now : ℤ) (hnd : (st.map Prod.fst).Nodup) (hlen : st.length ≤ MAX_CACHE_ENTRIES) :
    ((storeInSemanticCache st id q e r ttl now).map Prod.fst).Nodup ∧
    (storeInSemanticCache st id q e r ttl now).length ≤ MAX_CACHE_ENTRIES := by
  simp only [storeInSemanticCache]
  set mid := if ttl ≤ 0 then ([] : CacheHash) else hset st id ⟨q, e, r, now⟩ with hmid
  have hmidnd : (mid.map Prod.fst).Nodup := by
    rw [hmid]
    by_cases h0 : ttl ≤ 0
    · simp [h0]
    · rw [if_neg h0]
      exact hset_keys_nodup st id _ hnd
  have hmidlen : mid.length ≤ MAX_CACHE_ENTRIES + 1 := by
    rw [hmid]
    by_cases h0 : ttl ≤ 0
    · simp [h0]
    · rw [if_neg h0]
      exact le_trans (hset_length_le st id _) (by omega)
  by_cases hbig : mid.length > MAX_CACHE_ENTRIES
  · rw [if_pos hbig]
    constructor
    · exact List.Nodup.sublist ((List.filter_sublist _).map Prod.fst) hmidnd
    · rw [evict_length mid (mid.length - MAX_CACHE_ENTRIES) hmidnd]
      omega
  · rw [if_neg hbig]
    exact ⟨hmidnd, by omega⟩

/-- C4: starting from a well-formed cache holding at most
`MAX_CACHE_ENTRIES` live entries, every prefix of a sequence of
single-threaded stores leaves at most `MAX_CACHE_ENTRIES` live entries;
and whenever one store's insert (with the TTL applied) pushes the live
count above the bound, the store evicts entries of smallest timestamp
until the count is exactly `MAX_CACHE_ENTRIES`. -/
theorem c4_capacity_invariant (h : CacheHash) (reqs : List StoreReq)
    (hnd : (h.map Prod.fst).Nodup) (hlen : h.length ≤ MAX_CACHE_ENTRIES) :
    (∀ pre, pre <+: reqs → (storeSeq h pre).length ≤ MAX_CACHE_ENTRIES) ∧
    (∀ (st : CacheHash) (rq : StoreReq), (st.map Prod.fst).Nodup →
      MAX_CACHE_ENTRIES <
        (if rq.ttlSeconds ≤ 0 then ([] : CacheHash)
         else hset st rq.id ⟨rq.query, rq.embedding, rq.response, rq.now⟩).length →
      (storeInSemanticCache st rq.id rq.query rq.embedding rq.response rq.ttlSeconds
          rq.now).length = MAX_CACHE_ENTRIES ∧
      (∀ p ∈ (if rq.ttlSeconds ≤ 0 then ([] : CacheHash)
            else hset st rq.id ⟨rq.query, rq.embedding, rq.response, rq.now⟩),
        p ∉ storeInSemanticCache st rq.id rq.query rq.embedding rq.response rq.ttlSeconds
            rq.now →
        ∀ p' ∈ storeInSemanticCache st rq.id rq.query rq.embedding rq.response rq.ttlSeconds
            rq.now,
          p.2.timestamp ≤ p'.2.timestamp)) := by
  constructor
  · have inv : ∀ (pre : List StoreReq) (st : CacheHash), (st.map Prod.fst).Nodup →
        st.length ≤ MAX_CACHE_ENTRIES →
        ((storeSeq st pre).map Prod.fst).Nodup ∧ (storeSeq st pre).length ≤ MAX_CACHE_ENTRIES := by
      intro pre
      induction pre with
      | nil => exact fun st h1 h2 => ⟨h1, h2⟩
      | cons rq rest ih =>
        intro st h1 h2
        have hstep := store_preserves_inv st rq.id rq.query rq.embedding rq.response
          rq.ttlSeconds rq.now h1 h2
        exact ih _ hstep.1 hstep.2
    exact fun pre _ => (inv pre h hnd hlen).2
  · intro st rq hnd' hbig
    have hmidnd : ((if rq.ttlSeconds ≤ 0 then ([] : CacheHash)
        else hset st rq.id ⟨rq.query, rq.embedding, rq.response, rq.now⟩).map Prod.fst).Nodup := by
      by_cases h0 : rq.ttlSeconds ≤ 0
      · simp [h0]
      · rw [if_neg h0]
        exact hset_keys_nodup st rq.id _ hnd'
    have hstoreeq : storeInSemanticCache st rq.id rq.query rq.embedding rq.response
        rq.ttlSeconds rq.now =
        evictOldestEntries
          (if rq.ttlSeconds ≤ 0 then ([] : CacheHash)
           else hset st rq.id ⟨rq.query, rq.embedding, rq.response, rq.now⟩)
          ((if rq.ttlSeconds ≤ 0 then ([] : CacheHash)
            else hset st rq.id ⟨rq.query, rq.embedding, rq.response, rq.now⟩).length
            - MAX_CACHE_ENTRIES) := by
      simp only [storeInSemanticCache]
      rw [if_pos hbig]
    refine ⟨?_, ?_⟩
    · rw [hstoreeq, evict_length _ _ hmidnd]
      omega
    · intro p hp hnot p' hp'
      rw [hstoreeq] at hnot hp'
      exact evict_oldest _ _ hmidnd p hp hnot p' hp'

/-- Witness for C4 at a concrete input: from the empty cache, any prefix
of a single store keeps the live count within the bound, and the eviction
clause applies. -/
theorem c4_capacity_invariant_witness :
    (∀ pre, pre <+: [(⟨"id1", "q", [], "r", 3600, 0⟩ : StoreReq)] →
      (storeSeq [] pre).length ≤ MAX_CACHE_ENTRIES) ∧
    (∀ (st : CacheHash) (rq : StoreReq), (st.map Prod.fst).Nodup →
      MAX_CACHE_ENTRIES <
        (if rq.ttlSeconds ≤ 0 then ([] : CacheHash)
         else hset st rq.id ⟨rq.query, rq.embedding, rq.response, rq.now⟩).length →
      (storeInSemanticCache st rq.id rq.query rq.embedding rq.response rq.ttlSeconds
          rq.now).length = MAX_CACHE_ENTRIES ∧
      (∀ p ∈ (if rq.ttlSeconds ≤ 0 then ([] : CacheHash)
            else hset st rq.id ⟨rq.query, rq.embedding, rq.response, rq.now⟩),
        p ∉ storeInSemanticCache st rq.id rq.query rq.embedding rq.response rq.ttlSeconds
            rq.now →
        ∀ p' ∈ storeInSemanticCache st rq.id rq.query rq.embedding rq.response rq.ttlSeconds
            rq.now,
          p.2.timestamp ≤ p'.2.timestamp)) :=
  c4_capacity_invariant [] [⟨"id1", "q", [], "r", 3600, 0⟩] (by simp)
    (by norm_num [MAX_CACHE_ENTRIES])

lemma checkExists_queryByHash (tbl : List String) (h : String) :
    checkDocumentExists (queryByHash tbl h) = decide (h ∈ tbl) := by
  simp only [checkDocumentExists, queryByHash]
  rw [decide_eq_decide]
  constructor
  · intro hpos
    have hne : tbl.filter (fun x => x == h) ≠ [] := by
      intro h0
      rw [h0] at hpos
      simp at hpos
    obtain ⟨a, ha⟩ := List.exists_mem_of_ne_nil _ hne
    obtain ⟨hmem, hbeq⟩ := List.mem_filter.mp ha
    have : a = h := by simpa using hbeq
    exact this ▸ hmem
  · intro hmem
    exact List.length_pos_of_mem (List.mem_filter.mpr ⟨hmem, by simp⟩)

/-- C6, counterexample: for blank text (here a single space) whose digest
is already stored, `processText` fails with "No text to process" — not
with the `DUPLICATE_DOCUMENT` condition the claim requires for every
already-present content. -/
theorem c6_counterexample :
    processText " " "h1" (queryByHash ["h1"] "h1") [] =
      (.error "No text to process", [], []) ∧
    ("No text to process" : String) ≠ "DUPLICATE_DOCUMENT" := by
  constructor
  · have hblank : (" " : String).toList.all jsWhitespace = true := by decide
    simp only [processText]
    rw [if_pos hblank]
  · decide

/-- C6, amended: for every content with at least one character outside
the `trim()` whitespace set, if its digest is already stored then `processText` fails with
`DUPLICATE_DOCUMENT` after only the existence check — no chunking and no
embedding-provider call; and ingesting such a content twice (the second
existence check reading the rows the first call inserted, possible since
the chunker returns at least one chunk) succeeds the first time and fails
with `DUPLICATE_DOCUMENT` the second. Blank content instead fails with
"No text to process" before the existence check. -/
theorem c6_duplicate_gate (text sourceHash : String) (tbl chunks : List String)
    (htext : text.toList.all jsWhitespace = false) :
    (sourceHash ∈ tbl →
      processText text sourceHash (queryByHash tbl sourceHash) chunks =
        (.error "DUPLICATE_DOCUMENT", [.checkExists], []) ∧
      IngestEvent.embed ∉ (processText text sourceHash (queryByHash tbl sourceHash) chunks).2.1 ∧
      IngestEvent.chunk ∉ (processText text sourceHash (queryByHash tbl sourceHash) chunks).2.1) ∧
    (sourceHash ∉ tbl → chunks ≠ [] →
      (processText text sourceHash (queryByHash tbl sourceHash) chunks).1 =
        .ok ⟨true, chunks.length⟩ ∧
      processText text sourceHash
        (queryByHash
          (tbl ++ (processText text sourceHash (queryByHash tbl sourceHash) chunks).2.2)
          sourceHash) chunks =
        (.error "DUPLICATE_DOCUMENT", [.checkExists], [])) := by
  constructor
  · intro hmem
    have hchk : checkDocumentExists (queryByHash tbl sourceHash) = true := by
      rw [checkExists_queryByHash]
      exact decide_eq_true hmem
    have hrun : processText text sourceHash (queryByHash tbl sourceHash) chunks =
        (.error "DUPLICATE_DOCUMENT", [.checkExists], []) := by
      simp only [processText, htext, Bool.false_eq_true, if_false]
      rw [hchk]
      simp
    refine ⟨hrun, ?_, ?_⟩ <;> rw [hrun] <;> decide
  · intro hnot hch
    have hchk : checkDocumentExists (queryByHash tbl sourceHash) = false := by
      rw [checkExists_queryByHash]
      exact decide_eq_false hnot
    have hrun : processText text sourceHash (queryByHash tbl sourceHash) chunks =
        (.ok ⟨true, chunks.length⟩,
          .checkExists :: .chunk :: .embed :: chunks.map (fun _ => .insert),
          chunks.map (fun _ => sourceHash)) := by
      simp only [processText, htext, Bool.false_eq_true, if_false]
      rw [hchk]
      simp
    refine ⟨by rw [hrun], ?_⟩
    have hchk2 : checkDocumentExists (queryByHash
        (tbl ++ chunks.map (fun _ => sourceHash)) sourceHash) = true := by
      rw [checkExists_queryByHash]
      refine decide_eq_true (List.mem_append.mpr (Or.inr ?_))
      obtain ⟨c, hc⟩ := List.exists_mem_of_ne_nil chunks hch
      exact List.mem_map.mpr ⟨c, hc, rfl⟩
    have hgoal : processText text sourceHash
        (queryByHash (tbl ++ chunks.map (fun _ => sourceHash)) sourceHash) chunks =
        (.error "DUPLICATE_DOCUMENT", [.checkExists], []) := by
      simp only [processText, htext, Bool.false_eq_true, if_false]
      rw [hchk2]
      simp
    rw [hrun]
    exact hgoal

/-- Witness for C6 at a concrete input: content "agents use tools" with a
stored digest is rejected as a duplicate with no embedding work, and the
ingest-twice scenario plays out as stated. -/
theorem c6_duplicate_gate_witness :
    ("h1" ∈ ["h1"] →
      processText "agents use tools" "h1" (queryByHash ["h1"] "h1") ["agents use tools"] =
        (.error "DUPLICATE_DOCUMENT", [.checkExists], []) ∧
      IngestEvent.embed ∉
        (processText "agents use tools" "h1" (queryByHash ["h1"] "h1")
          ["agents use tools"]).2.1 ∧
      IngestEvent.chunk ∉
        (processText "agents use tools" "h1" (queryByHash ["h1"] "h1")
          ["agents use tools"]).2.1) ∧
    ("h1" ∉ ["h1"] → ["agents use tools"] ≠ [] →
      (processText "agents use tools" "h1" (queryByHash ["h1"] "h1")
        ["agents use tools"]).1 = .ok ⟨true, (["agents use tools"] : List String).length⟩ ∧
      processText "agents use tools" "h1"
        (queryByHash
          (["h1"] ++ (processText "agents use tools" "h1" (queryByHash ["h1"] "h1")
            ["agents use tools"]).2.2)
          "h1") ["agents use tools"] =
        (.error "DUPLICATE_DOCUMENT", [.checkExists], [])) :=
  c6_duplicate_gate "agents use tools" "h1" ["h1"] ["agents use tools"] (by decide)

/-- C10: a backing-store error during the duplicate-existence check makes
`checkDocumentExists` report "not present", so the gate fails open:
`processText` proceeds to chunk, embed and insert the content. -/
theorem c10_dedup_fails_open (text sourceHash err : String) (chunks : List String)
    (htext : text.toList.all jsWhitespace = false) :
    checkDocumentExists (.error err) = false ∧
    (processText text sourceHash (.error err) chunks).1 = .ok ⟨true, chunks.length⟩ ∧
    IngestEvent.embed ∈ (processText text sourceHash (.error err) chunks).2.1 := by
  have hrun : processText text sourceHash (.error err) chunks =
      (.ok ⟨true, chunks.length⟩,
        .checkExists :: .chunk :: .embed :: chunks.map (fun _ => .insert),
        chunks.map (fun _ => sourceHash)) := by
    simp only [processText, htext, Bool.false_eq_true, if_false]
    simp [checkDocumentExists]
  refine ⟨rfl, by rw [hrun], ?_⟩
  rw [hrun]
  simp

/-- Witness for C10 at a concrete input: with the existence query failing,
content "abc" is ingested (and embedded) even though its digest may
already exist. -/
theorem c10_dedup_fails_open_witness :
    checkDocumentExists (.error "boom") = false ∧
    (processText "abc" "h1" (.error "boom") ["abc"]).1 =
      .ok ⟨true, (["abc"] : List String).length⟩ ∧
    IngestEvent.embed ∈ (processText "abc" "h1" (.error "boom") ["abc"]).2.1 :=
  c10_dedup_fails_open "abc" "h1" "boom" ["abc"] (by decide)

lemma joinSep_cons_ne_nil (sep a : String) (l : List String) (h : l ≠ []) :
    joinSep sep (a :: l) = a ++ sep ++ joinSep sep l := by
  cases l with
  | nil => exact absurd rfl h
  | cons b bs => rfl

lemma joinSep_mapIdx (ds : List ContextDoc) : ds ≠ [] → ∀ i : ℕ,
    joinSep "\n\n---\n\n" (ds.mapIdx fun k d => renderDoc (i + k) d) = contextConcat i ds := by
  induction ds with
  | nil => exact fun h => absurd rfl h
  | cons d tail ih =>
    intro _ i
    cases tail with
    | nil =>
      simp [List.mapIdx_cons, List.mapIdx_nil, joinSep, contextConcat]
    | cons d' ds' =>
      rw [List.mapIdx_cons]
      have hne : (d' :: ds').mapIdx (fun k dd => renderDoc (i + (k + 1)) dd) ≠ [] := by
        rw [List.mapIdx_cons]
        simp
      have hfun : ((d' :: ds').mapIdx fun k dd => renderDoc (i + (k + 1)) dd)
          = ((d' :: ds').mapIdx fun k dd => renderDoc ((i + 1) + k) dd) := by
        congr 1
        funext k dd
        congr 1
        omega
      rw [show (fun k dd => (fun k dd => renderDoc (i + k) dd) (k + 1) dd)
        = (fun k dd => renderDoc (i + (k + 1)) dd) from rfl]
      rw [joinSep_cons_ne_nil _ _ _ hne, hfun, ih (by simp) (i + 1)]
      show renderDoc (i + 0) d ++ _ ++ _ = contextConcat i (d :: d' :: ds')
      rw [Nat.add_zero]
      rfl

/-- C9: `buildContextString` maps the empty document list to the fixed
non-empty "no relevant information" sentinel, and a non-empty list to the
ordered concatenation of the documents, each annotated with its
percentage relevance score (`contextConcat` starting at index 0). -/
theorem c9_context_string :
    buildContextString [] = noInfoSentinel ∧
    noInfoSentinel ≠ "" ∧
    ∀ docs : List ContextDoc, docs ≠ [] → buildContextString docs = contextConcat 0 docs := by
  refine ⟨rfl, by decide, ?_⟩
  intro docs hne
  have hlen : ¬ docs.length = 0 := by simpa using hne
  simp only [buildContextString, if_neg hlen]
  have hmap : docs.mapIdx renderDoc = docs.mapIdx (fun k d => renderDoc (0 + k) d) := by
    congr 1
    funext k d
    rw [Nat.zero_add]
  rw [hmap]
  exact joinSep_mapIdx docs hne 0

lemma range_map_decide_lt (k : ℕ) :
    (List.range (k + 1)).map (fun i => decide (i < k)) = List.replicate k true ++ [false] := by
  rw [List.range_succ, List.map_append]
  have hall : (List.range k).map (fun i => decide (i < k)) = List.replicate k true := by
    rw [List.eq_replicate_iff]
    refine ⟨by simp, ?_⟩
    intro b hb
    obtain ⟨i, hi, rfl⟩ := List.mem_map.mp hb
    exact decide_eq_true (List.mem_range.mp hi)
  rw [hall]
  simp

lemma memoryCheck_existing (m : ℕ) (w : ℤ) (key : String) (c : ℕ) (R t : ℤ)
    (hnow : ¬ t > R) :
    MemoryRateLimiter.check ⟨m, w⟩ [(key, ⟨c, R⟩)] key t =
      if c ≥ m then (false, [(key, ⟨c, R⟩)])
      else (true, [(key, ⟨c + 1, R⟩)]) := by
  have hget : memGet [(key, (⟨c, R⟩ : MemRecord))] key = some ⟨c, R⟩ := by
    simp [memGet]
  by_cases hcm : c ≥ m
  · simp [MemoryRateLimiter.check, hget, hnow, hcm]
  · simp [MemoryRateLimiter.check, hget, hnow, hcm, memSet]

lemma memoryRun_from_record (m : ℕ) (w : ℤ) (key : String) (ts : List ℤ) :
    ∀ (c : ℕ) (R : ℤ), (∀ t ∈ ts, t ≤ R) → c ≤ m →
    memoryRun ⟨m, w⟩ key [(key, ⟨c, R⟩)] ts
      = ((List.range ts.length).map (fun i => decide (c + i < m)),
         [(key, ⟨min m (c + ts.length), R⟩)]) := by
  induction ts with
  | nil =>
    intro c R _ hc
    simp [memoryRun, Nat.add_zero, min_eq_right hc]
  | cons t ts ih =>
    intro c R hts hc
    have hnow : ¬ t > R := not_lt.mpr (hts t (List.mem_cons_self t ts))
    have hchk := memoryCheck_existing m w key c R t hnow
    by_cases hcm : c ≥ m
    · rw [if_pos hcm] at hchk
      have hrec := ih c R (fun t' ht' => hts t' (List.mem_cons_of_mem t ht')) hc
      simp only [memoryRun, hchk, hrec, List.length_cons, List.range_succ_eq_map,
        List.map_cons, List.map_map, Prod.mk.injEq, List.cons.injEq]
      refine ⟨⟨?_, ?_⟩, ?_⟩
      · symm
        exact decide_eq_false (by omega)
      · refine List.map_congr_left ?_
        intro i _
        simp only [Function.comp_apply]
        exact decide_eq_decide.mpr (by omega)
      · have hmin : min m (c + ts.length) = min m (c + (ts.length + 1)) := by omega
        rw [hmin]
        simp
    · rw [if_neg hcm] at hchk
      have hrec := ih (c + 1) R (fun t' ht' => hts t' (List.mem_cons_of_mem t ht')) (by omega)
      simp only [memoryRun, hchk, hrec, List.length_cons, List.range_succ_eq_map,
        List.map_cons, List.map_map, Prod.mk.injEq, List.cons.injEq]
      refine ⟨⟨?_, ?_⟩, ?_⟩
      · symm
        exact decide_eq_true (by omega)
      · refine List.map_congr_left ?_
        intro i _
        simp only [Function.comp_apply]
        exact decide_eq_decide.mpr (by omega)
      · have hmin : min m (c + 1 + ts.length) = min m (c + (ts.length + 1)) := by omega
        rw [hmin]
        simp

lemma redisCheck_counter (m : ℕ) (w : ℤ) (tag key : String) (c : ℕ) (E t : ℤ)
    (ht : t < E) (hc : 1 ≤ c) :
    RedisRateLimiter.check ⟨tag, m, w⟩ [(tag ++ ":" ++ key, ⟨c, some E⟩)] key t =
      (decide (c + 1 ≤ m), [(tag ++ ":" ++ key, ⟨c + 1, some E⟩)]) := by
  have hlive : redisGetLive [(tag ++ ":" ++ key, (⟨c, some E⟩ : RedisVal))]
      (tag ++ ":" ++ key) t = some ⟨c, some E⟩ := by
    simp [redisGetLive, not_le.mpr ht]
  have hincr : redisIncr [(tag ++ ":" ++ key, (⟨c, some E⟩ : RedisVal))]
      (tag ++ ":" ++ key) t = (c + 1, [(tag ++ ":" ++ key, ⟨c + 1, some E⟩)]) := by
    simp [redisIncr, hlive, redisSet]
  simp only [RedisRateLimiter.check, hincr]
  rw [if_neg (by omega : ¬ c + 1 = 1)]

lemma redisRun_from_counter (m : ℕ) (w : ℤ) (tag key : String) (ts : List ℤ) :
    ∀ (c : ℕ) (E : ℤ), (∀ t ∈ ts, t < E) → 1 ≤ c →
    redisRun ⟨tag, m, w⟩ key [(tag ++ ":" ++ key, ⟨c, some E⟩)] ts
      = ((List.range ts.length).map (fun i => decide (c + i + 1 ≤ m)),
         [(tag ++ ":" ++ key, ⟨c + ts.length, some E⟩)]) := by
  induction ts with
  | nil =>
    intro c E _ _
    simp [redisRun]
  | cons t ts ih =>
    intro c E hts hc
    have hchk := redisCheck_counter m w tag key c E t (hts t (List.mem_cons_self t ts)) hc
    have hrec := ih (c + 1) E (fun t' ht' => hts t' (List.mem_cons_of_mem t ht')) (by omega)
    simp only [redisRun, hchk, hrec, List.length_cons, List.range_succ_eq_map,
      List.map_cons, List.map_map, Prod.mk.injEq, List.cons.injEq]
    refine ⟨⟨trivial, ?_⟩, ⟨trivial, ?_⟩, trivial⟩
    · refine List.map_congr_left ?_
      intro i _
      simp only [Function.comp_apply]
      exact decide_eq_decide.mpr (by omega)
    · have hcnt : c + 1 + ts.length = c + (ts.length + 1) := by omega
      rw [hcnt]

/-- C7, counterexample: with `maxRequests = 0` the claim says the
`(maxRequests + 1)`-th — that is, the first — call for a fresh key
returns false, but the memory backend's reset branch returns true
unconditionally. -/
theorem c7_counterexample :
    ¬ (MemoryRateLimiter.check ⟨0, 60000⟩ [] "ip-1" 0).1 = false := by
  decide

/-- C7, amended: for `maxRequests ≥ 1`, a fresh key and `m + 1` calls
within the first call's window, both backends allow exactly the first
`maxRequests` calls and deny the next; once the window has elapsed
(strictly for the memory backend, at expiry for Redis) the next call is
allowed again. -/
theorem c7_fresh_key_window (m : ℕ) (wM wS : ℤ) (key tag : String)
    (t0M tM t0R tR : ℤ) (restM restR : List ℤ)
    (hm : 1 ≤ m)
    (hlenM : restM.length = m) (hinM : ∀ t ∈ restM, t ≤ t0M + wM) (htM : t0M + wM < tM)
    (hlenR : restR.length = m) (hinR : ∀ t ∈ restR, t < t0R + wS) (hwS : 0 < wS)
    (htR : t0R + wS ≤ tR) :
    (memoryRun ⟨m, wM⟩ key [] (t0M :: restM)).1 = List.replicate m true ++ [false] ∧
    (MemoryRateLimiter.check ⟨m, wM⟩ (memoryRun ⟨m, wM⟩ key [] (t0M :: restM)).2 key tM).1
      = true ∧
    (redisRun ⟨tag, m, wS⟩ key [] (t0R :: restR)).1 = List.replicate m true ++ [false] ∧
    (RedisRateLimiter.check ⟨tag, m, wS⟩ (redisRun ⟨tag, m, wS⟩ key [] (t0R :: restR)).2
      key tR).1 = true := by
  have hchk0M : MemoryRateLimiter.check ⟨m, wM⟩ [] key t0M
      = (true, [(key, ⟨1, t0M + wM⟩)]) := by
    simp [MemoryRateLimiter.check, memGet, memSet]
  have hrunM := memoryRun_from_record m wM key restM 1 (t0M + wM) hinM hm
  have hboolsM : (memoryRun ⟨m, wM⟩ key [] (t0M :: restM)).1
      = true :: (List.range restM.length).map (fun i => decide (1 + i < m)) := by
    simp only [memoryRun, hchk0M, hrunM]
  have hstateM : (memoryRun ⟨m, wM⟩ key [] (t0M :: restM)).2
      = [(key, ⟨min m (1 + restM.length), t0M + wM⟩)] := by
    simp only [memoryRun, hchk0M, hrunM]
  have hchk0R : RedisRateLimiter.check ⟨tag, m, wS⟩ [] key t0R
      = (true, [(tag ++ ":" ++ key, ⟨1, some (t0R + wS)⟩)]) := by
    have hincr0 : redisIncr [] (tag ++ ":" ++ key) t0R
        = (1, [(tag ++ ":" ++ key, ⟨1, none⟩)]) := by
      simp [redisIncr, redisGetLive, redisSet]
    have hexp0 : redisExpire [(tag ++ ":" ++ key, ⟨1, none⟩)] (tag ++ ":" ++ key) wS t0R
        = [(tag ++ ":" ++ key, ⟨1, some (t0R + wS)⟩)] := by
      simp [redisExpire, not_le.mpr hwS, redisSet]
    have hb : decide (1 ≤ m) = true := decide_eq_true hm
    simp [RedisRateLimiter.check, hincr0, hexp0, hb]
  have hrunR := redisRun_from_counter m wS tag key restR 1 (t0R + wS) hinR le_rfl
  have hboolsR : (redisRun ⟨tag, m, wS⟩ key [] (t0R :: restR)).1
      = true :: (List.range restR.length).map (fun i => decide (1 + i + 1 ≤ m)) := by
    simp only [redisRun, hchk0R, hrunR]
  have hstateR : (redisRun ⟨tag, m, wS⟩ key [] (t0R :: restR)).2
      = [(tag ++ ":" ++ key, ⟨1 + restR.length, some (t0R + wS)⟩)] := by
    simp only [redisRun, hchk0R, hrunR]
  obtain ⟨m', rfl⟩ : ∃ m', m = m' + 1 := ⟨m - 1, by omega⟩
  refine ⟨?_, ?_, ?_, ?_⟩
  · rw [hboolsM, hlenM]
    have hmap : (List.range (m' + 1)).map (fun i => decide (1 + i < m' + 1))
        = (List.range (m' + 1)).map (fun i => decide (i < m')) :=
      List.map_congr_left (fun i _ => decide_eq_decide.mpr (by omega))
    rw [hmap, range_map_decide_lt m']
    simp [List.replicate_succ]
  · rw [hstateM]
    have hminm : min (m' + 1) (1 + restM.length) = m' + 1 := by
      rw [hlenM]
      omega
    rw [hminm]
    simp [MemoryRateLimiter.check, memGet, htM]
  · rw [hboolsR, hlenR]
    have hmap : (List.range (m' + 1)).map (fun i => decide (1 + i + 1 ≤ m' + 1))
        = (List.range (m' + 1)).map (fun i => decide (i < m')) :=
      List.map_congr_left (fun i _ => decide_eq_decide.mpr (by omega))
    rw [hmap, range_map_decide_lt m']
    simp [List.replicate_succ]
  · rw [hstateR]
    have hlive2 : redisGetLive
        [(tag ++ ":" ++ key, (⟨1 + restR.length, some (t0R + wS)⟩ : RedisVal))]
        (tag ++ ":" ++ key) tR = none := by
      simp [redisGetLive, htR]
    have hincr2 : redisIncr
        [(tag ++ ":" ++ key, (⟨1 + restR.length, some (t0R + wS)⟩ : RedisVal))]
        (tag ++ ":" ++ key) tR
        = (1, redisSet [(tag ++ ":" ++ key, ⟨1 + restR.length, some (t0R + wS)⟩)]
            (tag ++ ":" ++ key) ⟨1, none⟩) := by
      simp [redisIncr, hlive2]
    simp only [RedisRateLimiter.check, hincr2]
    exact decide_eq_true hm

/-- Witness for C7 at a concrete input: limit 1 per window, two calls in
the window, then one call after it, for both backends. -/
theorem c7_fresh_key_window_witness :
    (memoryRun ⟨1, 60000⟩ "ip-1" [] (0 :: [1])).1 = List.replicate 1 true ++ [false] ∧
    (MemoryRateLimiter.check ⟨1, 60000⟩ (memoryRun ⟨1, 60000⟩ "ip-1" [] (0 :: [1])).2
      "ip-1" 60001).1 = true ∧
    (redisRun ⟨"chat", 1, 60⟩ "ip-1" [] (0 :: [1])).1 = List.replicate 1 true ++ [false] ∧
    (RedisRateLimiter.check ⟨"chat", 1, 60⟩ (redisRun ⟨"chat", 1, 60⟩ "ip-1" [] (0 :: [1])).2
      "ip-1" 60).1 = true :=
  c7_fresh_key_window 1 60000 60 "ip-1" "chat" 0 60001 0 60 [1] [1]
    (by norm_num) (by decide) (by decide) (by decide) (by decide) (by decide)
    (by decide) (by decide)

/-- C8, counterexample: with `maxRequests = 0` a single fresh-key call is
allowed by the memory backend (reset branch) but denied by the Redis
backend (`1 ≤ 0` is false), so the two backends do not produce the same
allowed sequence for every configuration. -/
theorem c8_counterexample :
    (memoryRun ⟨0, 60000⟩ "ip-1" [] [0]).1 ≠ (redisRun ⟨"chat", 0, 60⟩ "ip-1" [] [0]).1 := by
  decide

/-- C8, amended: for `maxRequests ≥ 1`, equally many calls per backend,
each backend's calls falling strictly within its own first call's window,
the two backends return identical allowed sequences. -/
theorem c8_backend_agreement (m : ℕ) (wM wS : ℤ) (key tag : String) (t0M t0R : ℤ)
    (restM restR : List ℤ)
    (hm : 1 ≤ m) (hlen : restM.length = restR.length)
    (hinM : ∀ t ∈ restM, t < t0M + wM) (hinR : ∀ t ∈ restR, t < t0R + wS) (hwS : 0 < wS) :
    (memoryRun ⟨m, wM⟩ key [] (t0M :: restM)).1
      = (redisRun ⟨tag, m, wS⟩ key [] (t0R :: restR)).1 := by
  have hchk0M : MemoryRateLimiter.check ⟨m, wM⟩ [] key t0M
      = (true, [(key, ⟨1, t0M + wM⟩)]) := by
    simp [MemoryRateLimiter.check, memGet, memSet]
  have hrunM := memoryRun_from_record m wM key restM 1 (t0M + wM)
    (fun t ht => le_of_lt (hinM t ht)) hm
  have hchk0R : RedisRateLimiter.check ⟨tag, m, wS⟩ [] key t0R
      = (true, [(tag ++ ":" ++ key, ⟨1, some (t0R + wS)⟩)]) := by
    have hincr0 : redisIncr [] (tag ++ ":" ++ key) t0R
        = (1, [(tag ++ ":" ++ key, ⟨1, none⟩)]) := by
      simp [redisIncr, redisGetLive, redisSet]
    have hexp0 : redisExpire [(tag ++ ":" ++ key, ⟨1, none⟩)] (tag ++ ":" ++ key) wS t0R
        = [(tag ++ ":" ++ key, ⟨1, some (t0R + wS)⟩)] := by
      simp [redisExpire, not_le.mpr hwS, redisSet]
    have hb : decide (1 ≤ m) = true := decide_eq_true hm
    simp [RedisRateLimiter.check, hincr0, hexp0, hb]
  have hrunR := redisRun_from_counter m wS tag key restR 1 (t0R + wS) hinR le_rfl
  have hboolsM : (memoryRun ⟨m, wM⟩ key [] (t0M :: restM)).1
      = true :: (List.range restM.length).map (fun i => decide (1 + i < m)) := by
    simp only [memoryRun, hchk0M, hrunM]
  have hboolsR : (redisRun ⟨tag, m, wS⟩ key [] (t0R :: restR)).1
      = true :: (List.range restR.length).map (fun i => decide (1 + i + 1 ≤ m)) := by
    simp only [redisRun, hchk0R, hrunR]
  rw [hboolsM, hboolsR, hlen]
  exact congrArg (true :: ·)
    (List.map_congr_left (fun i _ => decide_eq_decide.mpr (by omega)))

/-- Witness for C8 at a concrete input: limit 2 per window, three calls
per backend within one window, identical allowed sequences. -/
theorem c8_backend_agreement_witness :
    (memoryRun ⟨2, 60000⟩ "ip-1" [] (0 :: [1, 2])).1
      = (redisRun ⟨"chat", 2, 60⟩ "ip-1" [] (5 :: [6, 7])).1 :=
  c8_backend_agreement 2 60000 60 "ip-1" "chat" 0 5 [1, 2] [6, 7]
    (by norm_num) (by decide) (by decide) (by decide) (by decide)
